import Mathlib

/-!
# infinibadger: the incremental log download of `main.go`

A shallow embedding of `client.downloadLogs` and `client.download`
(`src/main.go`, lines 42-118) and of the library calls they make.

* A Go `string` is a sequence of bytes; it is embedded as `List Char`, one
  element per byte, so that Go's `len` is `List.length` and the slice `a[:k]`
  is `List.take k`.
* An `int64` is an `Int` between `-2 ^ 63` and `2 ^ 63 - 1`.  The only
  arithmetic on one is `s.Size += int64(n)` of line 105, which wraps around
  modulo `2 ^ 64` as Go's signed addition does.
* The remote API and the local file are an environment `Env W` over an
  arbitrary world state `W`: each call takes the world and returns its answer
  together with the next world, so a source may answer the same request
  differently at different times.
* The pointers the SDK hands back for a listed descriptor and for a response
  are taken to be non-nil; their fields are pointers that may be nil and are
  read through `aws.StringValue` and `aws.Int64Value` as in the source.
* The `for` loop of `download` has no bound in the source; `loop` takes a fuel
  argument and returns `none` when the fuel is used up before the loop is left.
-/

namespace Infinibadger

/-- A Go string: its bytes in order. -/
abbrev GoString := List Char

/-- A Go `error` value that is not nil. -/
abbrev Error := String

/-- The value of an integer taken modulo `2 ^ 64` into the range of `int64`. -/
def wrap64 (i : Int) : Int :=
  (i + 9223372036854775808) % 18446744073709551616 - 9223372036854775808

/-- The Go type `int64`. -/
abbrev int64 := { i : Int // -9223372036854775808 ≤ i ∧ i ≤ 9223372036854775807 }

/-- The conversion `int64(n)`. -/
def int64.ofInt (i : Int) : int64 :=
  ⟨wrap64 i, by unfold wrap64; omega⟩

/-- The addition of `int64`, which wraps around. -/
instance : Add int64 := ⟨fun a b => int64.ofInt (a.val + b.val)⟩

instance (n : Nat) : OfNat int64 n := ⟨int64.ofInt (n : Int)⟩

/-- The struct `state` of `main.go` (lines 43-48). -/
structure state where
  LastWritten : int64
  LogFileName : GoString
  Marker : GoString
  Size : int64
deriving DecidableEq

/-- The fields of `rds.DescribeDBLogFilesDetails`; each is a pointer in Go and
`none` is the nil pointer. -/
structure Details where
  LastWritten : Option int64
  LogFileName : Option GoString
  Size : Option int64
deriving DecidableEq

/-- The fields of `rds.DownloadDBLogFilePortionOutput`; each is a pointer in Go
and `none` is the nil pointer. -/
structure Portion where
  AdditionalDataPending : Option Bool
  LogFileData : Option GoString
  Marker : Option GoString
deriving DecidableEq

/-- What `(*os.File).WriteString` returns.  `full` is `(len(s), nil)`;
`short n e` is `(n, e)` with `e` not nil.  (`os.File.Write` returns a non-nil
error whenever it wrote fewer bytes than it was given.) -/
inductive WriteResult where
  | full
  | short (n : Nat) (e : Error)
deriving DecidableEq

/-- The collaborators of the client: the two RDS calls and the log file. -/
structure Env (W : Type) where
  /-- The call `c.rds.DescribeDBLogFiles` with the given `FileLastWritten`. -/
  DescribeDBLogFiles : W → int64 → Except Error (List Details) × W
  /-- The call `c.rds.DownloadDBLogFilePortion` with the given `LogFileName`
  pointer and `Marker`. -/
  DownloadDBLogFilePortion : W → Option GoString → GoString → Except Error Portion × W
  /-- The call `c.lf.WriteString`. -/
  WriteString : W → GoString → WriteResult × W

/-- How a call of `download` or `downloadLogs` ends: `ok` is `return nil`, the
three error outcomes are the `return err` of lines 57, 90 and 103, and `panic`
is a run-time panic. -/
inductive Outcome where
  | ok
  | listErr (e : Error)
  | fetchErr (e : Error)
  | writeErr (e : Error)
  | panic
deriving DecidableEq

/-- A finished call: how it ended, the state and world it left, the bytes the
log file received and the fetches that were issued, both in order. -/
structure Run (W : Type) where
  res : Outcome
  st : state
  world : W
  out : GoString
  fetches : List (Option GoString × GoString)

namespace aws

/-- The helper `aws.StringValue`: the empty string for a nil pointer. -/
def StringValue (p : Option GoString) : GoString :=
  match p with
  | some v => v
  | none => []

/-- The helper `aws.Int64Value`: zero for a nil pointer. -/
def Int64Value (p : Option int64) : int64 :=
  match p with
  | some v => v
  | none => 0

end aws

namespace strings

/-- The function `strings.HasSuffix`:
`len(s) >= len(suffix) && s[len(s)-len(suffix):] == suffix`. -/
def HasSuffix (s suffix : GoString) : Bool :=
  decide (suffix.length ≤ s.length) && (s.drop (s.length - suffix.length) == suffix)

/-- The function `strings.Split` for a one-byte separator: the pieces of `s`
between the occurrences of `sep`. -/
def Split (s : GoString) (sep : Char) : List GoString :=
  match s with
  | [] => [[]]
  | c :: cs =>
    if c = sep then [] :: Split cs sep
    else
      match Split cs sep with
      | [] => [[c]]
      | p :: ps => (c :: p) :: ps

end strings

/-- The verb `%d` of `fmt.Sprintf` on an `int64`. -/
def fmtD (i : Int) : GoString :=
  match i with
  | Int.ofNat n => Nat.toDigits 10 n
  | Int.negSucc n => '-' :: Nat.toDigits 10 (n + 1)

/-- The literal of line 97. -/
def truncSuffix : GoString := " [Your log message was truncated]\n".toList

/-- Lines 97-99: the data with the slice `a[:len(a)-35]` taken when it ends
with the literal; `none` when the slice is out of range, which panics. -/
def cutSuffix (a : GoString) : Option GoString :=
  if strings.HasSuffix a truncSuffix then
    if (a.length : Int) - 35 < 0 then none
    else some (a.take ((a.length : Int) - 35).toNat)
  else some a

/-- One pass through the body of the `for` of `download`. -/
inductive Step (W : Type) where
  /-- The `continue` of line 111, with the bytes written in this pass. -/
  | next (s : state) (w : W) (wrote : GoString)
  /-- The loop is left: by `break`, by a `return err` or by a panic. -/
  | done (res : Outcome) (s : state) (w : W) (wrote : GoString)

/-- Lines 83-114: the body of the `for` of `download`. -/
def iteration {W : Type} (env : Env W) (f : Details) (s : state) (w : W) : Step W :=
  match env.DownloadDBLogFilePortion w f.LogFileName s.Marker with
  | (Except.error e, w1) => Step.done (Outcome.fetchErr e) s w1 []
  | (Except.ok resp, w1) =>
    match resp.LogFileData with
    | none => Step.done Outcome.ok s w1 []
    | some _ =>
      match cutSuffix (aws.StringValue resp.LogFileData) with
      | none => Step.done Outcome.panic s w1 []
      | some a =>
        match env.WriteString w1 a with
        | (WriteResult.short n e, w2) => Step.done (Outcome.writeErr e) s w2 (a.take n)
        | (WriteResult.full, w2) =>
          let s1 : state := { s with Size := s.Size + int64.ofInt (a.length : Int) }
          if (aws.Int64Value f.Size).val > s1.Size.val then
            match (strings.Split (aws.StringValue resp.Marker) ':').head? with
            | none => Step.done Outcome.panic s1 w2 a
            | some m0 =>
              Step.next { s1 with Marker := m0 ++ ':' :: fmtD s1.Size.val } w2 a
          else Step.done Outcome.ok s1 w2 a

/-- The state a pass leaves. -/
def Step.st {W : Type} : Step W → state
  | Step.next s _ _ => s
  | Step.done _ s _ _ => s

/-- The bytes a pass wrote. -/
def Step.wrote {W : Type} : Step W → GoString
  | Step.next _ _ wrote => wrote
  | Step.done _ _ _ wrote => wrote

/-- A run with the bytes and the fetch of an earlier pass put in front. -/
def Run.after {W : Type} (wrote : GoString) (fs : List (Option GoString × GoString))
    (r : Run W) : Run W :=
  { r with out := wrote ++ r.out, fetches := fs ++ r.fetches }

/-- Lines 82-115: the `for` of `download`, at most `fuel` passes. -/
def loop {W : Type} (env : Env W) (f : Details) : Nat → state → W → Option (Run W)
  | 0, _, _ => none
  | fuel + 1, s, w =>
    match iteration env f s w with
    | Step.done res s1 w1 wrote =>
      some { res := res, st := s1, world := w1, out := wrote,
             fetches := [(f.LogFileName, s.Marker)] }
    | Step.next s1 w1 wrote =>
      (loop env f fuel s1 w1).map (Run.after wrote [(f.LogFileName, s.Marker)])

/-- Lines 72-78: the state reset for a new file. -/
def resetFor (f : Details) (s : state) : state :=
  if s.LogFileName ≠ aws.StringValue f.LogFileName then
    { s with LogFileName := aws.StringValue f.LogFileName, Marker := ['0'], Size := 0 }
  else s

/-- The method `client.download` (lines 71-118). -/
def download {W : Type} (env : Env W) (fuel : Nat) (f : Details) (s : state) (w : W) :
    Option (Run W) :=
  loop env f fuel (resetFor f s) w

/-- Lines 60-66: the `range` over the listed files. -/
def rangeFiles {W : Type} (env : Env W) (fuel : Nat) :
    List Details → state → W → Option (Run W)
  | [], s, w => some { res := Outcome.ok, st := s, world := w, out := [], fetches := [] }
  | f :: fs, s, w =>
    match download env fuel f s w with
    | none => none
    | some r =>
      if r.res = Outcome.ok then
        (rangeFiles env fuel fs
          { r.st with LastWritten := aws.Int64Value f.LastWritten } r.world).map
          (Run.after r.out r.fetches)
      else some r

/-- The method `client.downloadLogs` (lines 50-69). -/
def downloadLogs {W : Type} (env : Env W) (fuel : Nat) (s : state) (w : W) :
    Option (Run W) :=
  match env.DescribeDBLogFiles w s.LastWritten with
  | (Except.error e, w1) =>
    some { res := Outcome.listErr e, st := s, world := w1, out := [], fetches := [] }
  | (Except.ok fs, w1) => rangeFiles env fuel fs s w1

/-! ## Notions used to state the properties -/

/-- The value of a decimal digit. -/
def digitVal (c : Char) : Option Nat :=
  if '0' ≤ c ∧ c ≤ '9' then some (c.toNat - 48) else none

/-- Reading a run of decimal digits, most significant first, onto `acc`. -/
def parseDecAux : Nat → GoString → Option Nat
  | acc, [] => some acc
  | acc, c :: cs =>
    match digitVal c with
    | none => none
    | some d => parseDecAux (acc * 10 + d) cs

/-- The number written by a non-empty run of decimal digits. -/
def parseDec (s : GoString) : Option Nat :=
  if s = [] then none else parseDecAux 0 s

/-- The offset a marker names: `"0"` names offset 0 and `"p:k"` names offset
`k`. -/
def offsetOf (m : GoString) : Option Nat :=
  if m = ['0'] then some 0
  else
    match strings.Split m ':' with
    | [_, k] => parseDec k
    | _ => none

/-- A source serves the file `name` with content `c`: a fetch at a marker that
names an offset inside `c` either fails or carries a non-empty chunk of `c`
that starts at that offset and does not end with the truncation suffix. -/
def Serves {W : Type} (env : Env W) (name : Option GoString) (c : GoString) : Prop :=
  ∀ (w : W) (marker : GoString) (k : Nat), offsetOf marker = some k → k < c.length →
    match env.DownloadDBLogFilePortion w name marker with
    | (Except.error _, _) => True
    | (Except.ok resp, _) =>
      ∃ d, resp.LogFileData = some d ∧ d ≠ [] ∧ d <+: c.drop k ∧
        strings.HasSuffix d truncSuffix = false

/-- Every response that carries data leads to at least one byte to write: the
suffix cut is in range and leaves a non-empty string. -/
def Productive {W : Type} (env : Env W) : Prop :=
  ∀ (w : W) (name : Option GoString) (marker : GoString) (resp : Portion) (w1 : W),
    env.DownloadDBLogFilePortion w name marker = (Except.ok resp, w1) →
    ∀ d, resp.LogFileData = some d → ∃ a, cutSuffix d = some a ∧ a ≠ []

/-- Two answers to a fetch that differ at most in `AdditionalDataPending`. -/
def AgreeButFlag {W : Type} (x y : Except Error Portion × W) : Prop :=
  x.2 = y.2 ∧
    match x.1, y.1 with
    | Except.error e, Except.error e' => e = e'
    | Except.ok p, Except.ok q => p.LogFileData = q.LogFileData ∧ p.Marker = q.Marker
    | _, _ => False

/-- Two environments that differ at most in the `AdditionalDataPending` flag of
the fetch responses. -/
def FlagOnly {W : Type} (env env' : Env W) : Prop :=
  env.DescribeDBLogFiles = env'.DescribeDBLogFiles ∧
  env.WriteString = env'.WriteString ∧
  ∀ w name marker,
    AgreeButFlag (env.DownloadDBLogFilePortion w name marker)
      (env'.DownloadDBLogFilePortion w name marker)

/-- Marker and byte count agree: no file is in progress, or the file is at its
beginning, or the marker ends with `:` and the decimal byte count. -/
def Coherent (s : state) : Prop :=
  s.LogFileName = [] ∨ (s.Size = 0 ∧ s.Marker = ['0']) ∨
    (':' :: fmtD s.Size.val) <:+ s.Marker

instance (s : state) : Decidable (Coherent s) := by
  unfold Coherent; infer_instance

/-! ## Concrete environments -/

/-- A source that lists `files` and answers the fetches from `script`, one
entry per call, whatever is asked; the world is the number of fetches made.
Every write succeeds. -/
def scripted (files : List Details) (script : List (Except Error Portion)) : Env Nat where
  DescribeDBLogFiles := fun w _ => (Except.ok files, w)
  DownloadDBLogFilePortion := fun w _ _ =>
    (script.getD w (Except.error "no more responses"), w + 1)
  WriteString := fun w _ => (WriteResult.full, w)

/-- A source that holds one file `name` with content `c` and answers a fetch
with at most `chunk` bytes of `c` from the offset the marker names.  The world
is a list of flags, one per coming fetch; `true` makes that fetch fail.  Every
write succeeds. -/
def fileServer (name c : GoString) (chunk : Nat) : Env (List Bool) where
  DescribeDBLogFiles := fun w _ =>
    (Except.ok [{ LastWritten := some (int64.ofInt (c.length : Int)),
                  LogFileName := some name,
                  Size := some (int64.ofInt (c.length : Int)) }], w)
  DownloadDBLogFilePortion := fun w _ marker =>
    if w.head? = some true then (Except.error "timeout", w.tail)
    else
      match offsetOf marker with
      | none => (Except.error "bad marker", w.tail)
      | some k =>
        let d := (c.drop k).take chunk
        (Except.ok { AdditionalDataPending := some false,
                     LogFileData := if d = [] then none else some d,
                     Marker := some ('0' :: ':' :: fmtD ((k + d.length : Nat) : Int)) },
         w.tail)
  WriteString := fun w _ => (WriteResult.full, w)

/-- A response with data and marker and the given flag. -/
def chunkResp (flag : Bool) (d m : String) : Except Error Portion :=
  Except.ok { AdditionalDataPending := some flag, LogFileData := some d.toList,
              Marker := some m.toList }

/-- What a run is compared on: outcome, final state, bytes written, number of
fetches. -/
def Run.view {W : Type} (r : Run W) : Outcome × state × GoString × Nat :=
  (r.res, r.st, r.out, r.fetches.length)

/-- The zero value `&state{}` of `main`. -/
def state.zero : state := { LastWritten := 0, LogFileName := [], Marker := [], Size := 0 }

/-- A descriptor with all three fields set. -/
def details (name : String) (size lastWritten : Int) : Details :=
  { LastWritten := some (int64.ofInt lastWritten), LogFileName := some name.toList,
    Size := some (int64.ofInt size) }

/-- The file `f` with six bytes, served two bytes at a time. -/
def sixBytes : Env (List Bool) := fileServer "f".toList "abcdef".toList 2

/-- The same file when it held four bytes. -/
def fourBytes : Env (List Bool) := fileServer "f".toList "abcd".toList 2

/-- The state a full drain of the four-byte file leaves. -/
def drainedFour : state :=
  { LastWritten := 4, LogFileName := "f".toList, Marker := "0:2".toList, Size := 4 }

/-- The run of a download of the six-byte file whose second fetch fails. -/
def abortedRun : Run (List Bool) :=
  { res := Outcome.fetchErr "timeout",
    st := { LastWritten := 0, LogFileName := "f".toList, Marker := "0:2".toList, Size := 2 },
    world := [],
    out := "ab".toList,
    fetches := [(some "f".toList, "0".toList), (some "f".toList, "0:2".toList)] }

/-- Two chunks of a four-byte file; the flag says "no more" on the first and
"more" on the last. -/
def flagsWrong : Env Nat :=
  scripted [details "f" 4 9] [chunkResp false "ab" "0:2", chunkResp true "cd" "0:4"]

/-- The same two chunks with the flag the other way round. -/
def flagsRight : Env Nat :=
  scripted [details "f" 4 9] [chunkResp true "ab" "0:2", chunkResp false "cd" "0:4"]

/-- The run of a download of the two chunks. -/
def twoChunkRun : Run Nat :=
  { res := Outcome.ok,
    st := { LastWritten := 0, LogFileName := "f".toList, Marker := "0:2".toList, Size := 4 },
    world := 2,
    out := "abcd".toList,
    fetches := [(some "f".toList, "0".toList), (some "f".toList, "0:2".toList)] }

/-- A response without data. -/
def noData : Except Error Portion :=
  Except.ok { AdditionalDataPending := none, LogFileData := none, Marker := none }

/-- Three empty files with the time stamps 1, 2 and 3. -/
def threeFiles : Env Nat :=
  scripted [details "a" 0 1, details "b" 0 2, details "c" 0 3] [noData, noData, noData]

/-- The run of a cycle over the three files. -/
def threeFilesRun : Run Nat :=
  { res := Outcome.ok,
    st := { LastWritten := 3, LogFileName := "c".toList, Marker := "0".toList, Size := 0 },
    world := 3,
    out := [],
    fetches := [(some "a".toList, "0".toList), (some "b".toList, "0".toList),
                (some "c".toList, "0".toList)] }

/-- A listing that returns a file with time stamp 5. -/
def oldFile : Env Nat := scripted [details "f" 0 5] [noData]

/-- A response whose data is `"ab"` followed by the truncation suffix. -/
def truncatedChunk : Env Nat :=
  scripted [details "f" 2 1] [chunkResp false "ab [Your log message was truncated]\n" "0:36"]

/-- Every chunk the source gives to write has at most `L` bytes. -/
def ChunkBound {W : Type} (env : Env W) (L : Int) : Prop :=
  ∀ (w : W) (name : Option GoString) (marker : GoString) (resp : Portion) (w1 : W),
    env.DownloadDBLogFilePortion w name marker = (Except.ok resp, w1) →
    ∀ d a, resp.LogFileData = some d → cutSuffix d = some a → (a.length : Int) ≤ L

/-- A file of listed size 5 that answers one byte and then no data. -/
def oneByte : Env Nat :=
  scripted [details "f" 5 1] [chunkResp true "x" "0:1", noData]

/-- A state that carries the greatest `int64` as the size of `f`. -/
def maxedState : state :=
  { LastWritten := 0, LogFileName := "f".toList,
    Marker := "0:9223372036854775807".toList,
    Size := int64.ofInt 9223372036854775807 }

/-- A response whose data is the truncation suffix and nothing else. -/
def suffixOnly : Env Nat :=
  scripted [details "f" 100 1] [chunkResp true " [Your log message was truncated]\n" "0:34"]

/-- The ways one pass of the loop can go, each with the answers that lead to
it. -/
inductive PassCase {W : Type} (env : Env W) (f : Details) (s : state) (w : W) : Prop where
  | fetchErr (e : Error) (w1 : W)
      (hf : env.DownloadDBLogFilePortion w f.LogFileName s.Marker = (Except.error e, w1))
      (hi : iteration env f s w = Step.done (Outcome.fetchErr e) s w1 [])
  | noData (resp : Portion) (w1 : W)
      (hf : env.DownloadDBLogFilePortion w f.LogFileName s.Marker = (Except.ok resp, w1))
      (hd : resp.LogFileData = none)
      (hi : iteration env f s w = Step.done Outcome.ok s w1 [])
  | slicePanic (resp : Portion) (w1 : W) (d : GoString)
      (hf : env.DownloadDBLogFilePortion w f.LogFileName s.Marker = (Except.ok resp, w1))
      (hd : resp.LogFileData = some d) (hc : cutSuffix d = none)
      (hi : iteration env f s w = Step.done Outcome.panic s w1 [])
  | writeErr (resp : Portion) (w1 : W) (d a : GoString) (n : Nat) (e : Error) (w2 : W)
      (hf : env.DownloadDBLogFilePortion w f.LogFileName s.Marker = (Except.ok resp, w1))
      (hd : resp.LogFileData = some d) (hc : cutSuffix d = some a)
      (hw : env.WriteString w1 a = (WriteResult.short n e, w2))
      (hi : iteration env f s w = Step.done (Outcome.writeErr e) s w2 (a.take n))
  | last (resp : Portion) (w1 : W) (d a : GoString) (w2 : W)
      (hf : env.DownloadDBLogFilePortion w f.LogFileName s.Marker = (Except.ok resp, w1))
      (hd : resp.LogFileData = some d) (hc : cutSuffix d = some a)
      (hw : env.WriteString w1 a = (WriteResult.full, w2))
      (hs : ¬ (aws.Int64Value f.Size).val > (s.Size + int64.ofInt (a.length : Int)).val)
      (hi : iteration env f s w =
        Step.done Outcome.ok { s with Size := s.Size + int64.ofInt (a.length : Int) } w2 a)
  | more (resp : Portion) (w1 : W) (d a : GoString) (w2 : W) (m0 : GoString)
      (rest : List GoString)
      (hf : env.DownloadDBLogFilePortion w f.LogFileName s.Marker = (Except.ok resp, w1))
      (hd : resp.LogFileData = some d) (hc : cutSuffix d = some a)
      (hw : env.WriteString w1 a = (WriteResult.full, w2))
      (hs : (aws.Int64Value f.Size).val > (s.Size + int64.ofInt (a.length : Int)).val)
      (hm : strings.Split (aws.StringValue resp.Marker) ':' = m0 :: rest)
      (hm0 : ':' ∉ m0)
      (hi : iteration env f s w =
        Step.next { s with Size := s.Size + int64.ofInt (a.length : Int),
                           Marker := m0 ++ ':' ::
                             fmtD (s.Size + int64.ofInt (a.length : Int)).val } w2 a)

/-! ## Basic facts about the loop -/

theorem truncSuffix_length : truncSuffix.length = 34 := by decide

theorem Split_head (s : GoString) (sep : Char) :
    ∃ m0 rest, strings.Split s sep = m0 :: rest ∧ sep ∉ m0 := by
  induction s with
  | nil => exact ⟨[], [], rfl, by simp⟩
  | cons c cs ih =>
    obtain ⟨m0, rest, h, hm⟩ := ih
    unfold strings.Split
    by_cases hc : c = sep
    · exact ⟨[], strings.Split cs sep, by simp [hc], by simp⟩
    · refine ⟨c :: m0, rest, by simp [hc, h], ?_⟩
      simp only [List.mem_cons, not_or]
      exact ⟨fun h => hc h.symm, hm⟩

theorem iteration_cases {W : Type} (env : Env W) (f : Details) (s : state) (w : W) :
    PassCase env f s w := by
  rcases hf : env.DownloadDBLogFilePortion w f.LogFileName s.Marker with ⟨e | resp, w1⟩
  · exact PassCase.fetchErr e w1 hf (by simp [iteration, hf])
  · rcases hd : resp.LogFileData with _ | d
    · exact PassCase.noData resp w1 hf hd (by simp [iteration, hf, hd])
    · rcases hc : cutSuffix d with _ | a
      · exact PassCase.slicePanic resp w1 d hf hd hc
          (by simp [iteration, hf, hd, aws.StringValue, hc])
      · rcases hw : env.WriteString w1 a with ⟨_ | ⟨n, e⟩, w2⟩
        · by_cases hs : (aws.Int64Value f.Size).val >
              (s.Size + int64.ofInt (a.length : Int)).val
          · obtain ⟨m0, rest, hm, hm0⟩ := Split_head (aws.StringValue resp.Marker) ':'
            refine PassCase.more resp w1 d a w2 m0 rest hf hd hc hw hs hm hm0 ?_
            simp only [iteration, hf, hd, aws.StringValue, hc, hw]
            rw [if_pos hs]
            have hm' : strings.Split (match resp.Marker with | some v => v | none => []) ':'
                = m0 :: rest := hm
            simp [hm']
          · refine PassCase.last resp w1 d a w2 hf hd hc hw hs ?_
            simp only [iteration, hf, hd, aws.StringValue, hc, hw]
            rw [if_neg hs]
        · exact PassCase.writeErr resp w1 d a n e w2 hf hd hc hw
            (by simp [iteration, hf, hd, aws.StringValue, hc, hw])

theorem iteration_keeps {W : Type} (env : Env W) (f : Details) (s : state) (w : W) :
    (iteration env f s w).st.LastWritten = s.LastWritten ∧
    (iteration env f s w).st.LogFileName = s.LogFileName := by
  cases iteration_cases env f s w with
  | fetchErr e w1 hf hi => simp [hi, Step.st]
  | noData resp w1 hf hd hi => simp [hi, Step.st]
  | slicePanic resp w1 d hf hd hc hi => simp [hi, Step.st]
  | writeErr resp w1 d a n e w2 hf hd hc hw hi => simp [hi, Step.st]
  | last resp w1 d a w2 hf hd hc hw hs hi => simp [hi, Step.st]
  | more resp w1 d a w2 m0 rest hf hd hc hw hs hm hm0 hi => simp [hi, Step.st]

theorem loop_keeps {W : Type} (env : Env W) (f : Details) :
    ∀ (fuel : Nat) (s : state) (w : W) (r : Run W), loop env f fuel s w = some r →
      r.st.LastWritten = s.LastWritten ∧ r.st.LogFileName = s.LogFileName := by
  intro fuel
  induction fuel with
  | zero => intro s w r h; simp [loop] at h
  | succ k ih =>
    intro s w r h
    have hk := iteration_keeps env f s w
    unfold loop at h
    split at h
    · rename_i res s1 w1 wrote heq
      simp only [Option.some.injEq] at h
      subst h
      simpa [heq, Step.st] using hk
    · rename_i s1 w1 wrote heq
      simp only [Option.map_eq_some'] at h
      obtain ⟨r', hr', rfl⟩ := h
      have := ih s1 w1 r' hr'
      simp only [heq, Step.st] at hk
      simp only [Run.after]
      exact ⟨this.1.trans hk.1, this.2.trans hk.2⟩

theorem resetFor_lastWritten (f : Details) (s : state) :
    (resetFor f s).LastWritten = s.LastWritten := by
  unfold resetFor; split <;> rfl

theorem download_lastWritten {W : Type} (env : Env W) (fuel : Nat) (f : Details)
    (s : state) (w : W) (r : Run W) (h : download env fuel f s w = some r) :
    r.st.LastWritten = s.LastWritten := by
  have := (loop_keeps env f fuel _ w r h).1
  rw [this, resetFor_lastWritten]

theorem rangeFiles_ok_lastWritten {W : Type} (env : Env W) (fuel : Nat) :
    ∀ (fs : List Details) (s : state) (w : W) (r : Run W),
      rangeFiles env fuel fs s w = some r → r.res = Outcome.ok →
      r.st.LastWritten =
        match fs.getLast? with
        | some f => aws.Int64Value f.LastWritten
        | none => s.LastWritten := by
  intro fs
  induction fs with
  | nil => intro s w r h _; simp [rangeFiles] at h; subst h; simp
  | cons f fs ih =>
    intro s w r h hok
    unfold rangeFiles at h
    split at h
    · simp at h
    · rename_i r0 hr0
      split at h
      · simp only [Option.map_eq_some'] at h
        obtain ⟨r', hr', rfl⟩ := h
        have hok' : r'.res = Outcome.ok := by simpa [Run.after] using hok
        have := ih _ _ r' hr' hok'
        simp only [Run.after]
        rw [this]
        cases fs with
        | nil => simp
        | cons g gs =>
          cases hl : (g :: gs).getLast? with
          | none => simp at hl
          | some x => simp [List.getLast?_cons_cons, hl]
      · simp only [Option.some.injEq] at h
        subst h
        contradiction

theorem rangeFiles_lastWritten_mem {W : Type} (env : Env W) (fuel : Nat) :
    ∀ (fs : List Details) (s : state) (w : W) (r : Run W),
      rangeFiles env fuel fs s w = some r →
      r.st.LastWritten = s.LastWritten ∨
        ∃ f ∈ fs, r.st.LastWritten = aws.Int64Value f.LastWritten := by
  intro fs
  induction fs with
  | nil => intro s w r h; simp [rangeFiles] at h; subst h; simp
  | cons f fs ih =>
    intro s w r h
    unfold rangeFiles at h
    split at h
    · simp at h
    · rename_i r0 hr0
      split at h
      · simp only [Option.map_eq_some'] at h
        obtain ⟨r', hr', rfl⟩ := h
        rcases ih _ _ r' hr' with h1 | ⟨g, hg, h1⟩
        · right
          exact ⟨f, List.mem_cons_self _ _, by simpa [Run.after] using h1⟩
        · right
          exact ⟨g, List.mem_cons_of_mem _ hg, by simpa [Run.after] using h1⟩
      · simp only [Option.some.injEq] at h
        subst h
        left
        exact download_lastWritten env fuel f s w r0 hr0


theorem loop_done {W : Type} (env : Env W) (f : Details) (fuel : Nat) (s : state) (w : W)
    (res : Outcome) (s1 : state) (w1 : W) (wrote : GoString)
    (hi : iteration env f s w = Step.done res s1 w1 wrote) :
    loop env f (fuel + 1) s w =
      some { res := res, st := s1, world := w1, out := wrote,
             fetches := [(f.LogFileName, s.Marker)] } := by
  simp [loop, hi]

theorem loop_next {W : Type} (env : Env W) (f : Details) (fuel : Nat) (s : state) (w : W)
    (s1 : state) (w1 : W) (wrote : GoString)
    (hi : iteration env f s w = Step.next s1 w1 wrote) :
    loop env f (fuel + 1) s w =
      (loop env f fuel s1 w1).map (Run.after wrote [(f.LogFileName, s.Marker)]) := by
  simp [loop, hi]

theorem loop_mono {W : Type} (env : Env W) (f : Details) :
    ∀ (fuel : Nat) (s : state) (w : W) (r : Run W), loop env f fuel s w = some r →
      ∀ fuel', fuel ≤ fuel' → loop env f fuel' s w = some r := by
  intro fuel
  induction fuel with
  | zero => intro s w r h; simp [loop] at h
  | succ k ih =>
    intro s w r h fuel' hle
    obtain ⟨k', rfl⟩ : ∃ k', fuel' = k' + 1 := ⟨fuel' - 1, by omega⟩
    cases hi : iteration env f s w with
    | done res s1 w1 wrote =>
      rw [loop_done env f k s w res s1 w1 wrote hi] at h
      rw [loop_done env f k' s w res s1 w1 wrote hi]
      exact h
    | next s1 w1 wrote =>
      rw [loop_next env f k s w s1 w1 wrote hi] at h
      rw [loop_next env f k' s w s1 w1 wrote hi]
      simp only [Option.map_eq_some'] at h ⊢
      obtain ⟨r', hr', rfl⟩ := h
      exact ⟨r', ih s1 w1 r' hr' k' (by omega), rfl⟩

theorem loop_first_fetch {W : Type} (env : Env W) (f : Details) (fuel : Nat) (s : state)
    (w : W) (r : Run W) (h : loop env f fuel s w = some r) :
    r.fetches.head? = some (f.LogFileName, s.Marker) := by
  cases fuel with
  | zero => simp [loop] at h
  | succ k =>
    cases hi : iteration env f s w with
    | done res s1 w1 wrote =>
      rw [loop_done env f k s w res s1 w1 wrote hi] at h
      simp only [Option.some.injEq] at h
      subst h; rfl
    | next s1 w1 wrote =>
      rw [loop_next env f k s w s1 w1 wrote hi] at h
      simp only [Option.map_eq_some'] at h
      obtain ⟨r', _, rfl⟩ := h
      rfl

theorem int64_add_val (x : int64) (n : Int) :
    (x + int64.ofInt n).val = wrap64 (x.val + n) := by
  show wrap64 (x.val + wrap64 n) = wrap64 (x.val + n)
  unfold wrap64
  omega

theorem wrap64_val (x : int64) : wrap64 x.val = x.val := by
  have := x.property
  unfold wrap64
  omega

theorem wrap64_add_wrap64 (i j : Int) : wrap64 (wrap64 i + j) = wrap64 (i + j) := by
  unfold wrap64
  omega

theorem loop_size {W : Type} (env : Env W) (f : Details) :
    ∀ (fuel : Nat) (s : state) (w : W) (r : Run W), loop env f fuel s w = some r →
      (∀ e, r.res ≠ Outcome.writeErr e) →
      r.st.Size.val = wrap64 (s.Size.val + (r.out.length : Int)) := by
  intro fuel
  induction fuel with
  | zero => intro s w r h; simp [loop] at h
  | succ k ih =>
    intro s w r h hne
    cases iteration_cases env f s w with
    | fetchErr e w1 hf hi =>
      rw [loop_done env f k s w _ _ _ _ hi] at h
      simp only [Option.some.injEq] at h
      subst h; simp [wrap64_val]
    | noData resp w1 hf hd hi =>
      rw [loop_done env f k s w _ _ _ _ hi] at h
      simp only [Option.some.injEq] at h
      subst h; simp [wrap64_val]
    | slicePanic resp w1 d hf hd hc hi =>
      rw [loop_done env f k s w _ _ _ _ hi] at h
      simp only [Option.some.injEq] at h
      subst h; simp [wrap64_val]
    | writeErr resp w1 d a n e w2 hf hd hc hw hi =>
      rw [loop_done env f k s w _ _ _ _ hi] at h
      simp only [Option.some.injEq] at h
      subst h
      exact absurd rfl (hne e)
    | last resp w1 d a w2 hf hd hc hw hs hi =>
      rw [loop_done env f k s w _ _ _ _ hi] at h
      simp only [Option.some.injEq] at h
      subst h
      exact int64_add_val s.Size _
    | more resp w1 d a w2 m0 rest hf hd hc hw hs hm hm0 hi =>
      rw [loop_next env f k s w _ _ _ hi] at h
      simp only [Option.map_eq_some'] at h
      obtain ⟨r', hr', rfl⟩ := h
      have := ih _ _ r' hr' (by simpa [Run.after] using hne)
      simp only [Run.after, List.length_append, Nat.cast_add]
      rw [this]
      simp only []
      rw [int64_add_val, wrap64_add_wrap64]
      congr 1
      omega

/-! ## Decimal offsets -/

theorem digitVal_digitChar (d : Nat) (h : d < 10) :
    digitVal (Nat.digitChar d) = some d ∧ Nat.digitChar d ≠ ':' := by
  interval_cases d <;> decide

theorem toDigitsCore_spec :
    ∀ (fuel n : Nat) (ds : List Char), n < fuel →
      ∃ L : List Char, Nat.toDigitsCore 10 fuel n ds = L ++ ds ∧ L ≠ [] ∧
        (∀ c ∈ L, c ≠ ':') ∧
        ∀ (acc : Nat) (rest : GoString),
          parseDecAux acc (L ++ rest) = parseDecAux (acc * 10 ^ L.length + n) rest := by
  intro fuel
  induction fuel with
  | zero => intro n ds h; omega
  | succ k ih =>
    intro n ds hn
    have hd := digitVal_digitChar (n % 10) (Nat.mod_lt _ (by decide))
    simp only [Nat.toDigitsCore]
    by_cases h0 : n / 10 = 0
    · refine ⟨[Nat.digitChar (n % 10)], by simp [h0], by simp, ?_, ?_⟩
      · intro c hc
        simp only [List.mem_singleton] at hc
        subst hc; exact hd.2
      · intro acc rest
        have hmod : n % 10 = n := by omega
        have hd1 := hd.1
        simp only [List.singleton_append, List.length_singleton, pow_one, parseDecAux]
        rw [hd1, hmod]
        rfl
    · obtain ⟨L, hL, hne, hcol, hparse⟩ :=
        ih (n / 10) (Nat.digitChar (n % 10) :: ds) (by omega)
      refine ⟨L ++ [Nat.digitChar (n % 10)], by simp [h0, hL], by simp, ?_, ?_⟩
      · intro c hc
        simp only [List.mem_append, List.mem_singleton] at hc
        rcases hc with hc | hc
        · exact hcol c hc
        · subst hc; exact hd.2
      · intro acc rest
        have := hparse acc (Nat.digitChar (n % 10) :: rest)
        simp only [List.append_assoc, List.singleton_append, List.length_append,
          List.length_singleton]
        rw [this]
        simp only [parseDecAux, hd.1]
        congr 1
        rw [pow_succ]
        have := Nat.div_add_mod n 10
        nlinarith [this]

theorem parseDec_toDigits (n : Nat) :
    parseDec (Nat.toDigits 10 n) = some n ∧ ∀ c ∈ Nat.toDigits 10 n, c ≠ ':' := by
  obtain ⟨L, hL, hne, hcol, hparse⟩ := toDigitsCore_spec (n + 1) n [] (by omega)
  have hL' : Nat.toDigits 10 n = L := by simpa [Nat.toDigits] using hL
  rw [hL']
  refine ⟨?_, hcol⟩
  have := hparse 0 []
  simp only [List.append_nil, zero_mul, zero_add] at this
  simp [parseDec, hne, this, parseDecAux]

theorem Split_no_sep (q : GoString) (sep : Char) (hq : sep ∉ q) :
    strings.Split q sep = [q] := by
  induction q with
  | nil => rfl
  | cons c cs ih =>
    simp only [List.mem_cons, not_or] at hq
    have hc : ¬ c = sep := fun h => hq.1 (Eq.symm h)
    unfold strings.Split
    simp [hc, ih hq.2]

theorem Split_two (p q : GoString) (sep : Char) (hp : sep ∉ p) (hq : sep ∉ q) :
    strings.Split (p ++ sep :: q) sep = [p, q] := by
  induction p with
  | nil => simp [strings.Split, Split_no_sep q sep hq]
  | cons c cs ih =>
    simp only [List.mem_cons, not_or] at hp
    simp only [List.cons_append]
    have hc : ¬ c = sep := fun h => hp.1 (Eq.symm h)
    unfold strings.Split
    simp [hc, ih hp.2]

theorem offsetOf_marker (m0 : GoString) (n : Nat) (hm : ':' ∉ m0) :
    offsetOf (m0 ++ ':' :: fmtD (n : Int)) = some n := by
  have hd := parseDec_toDigits n
  have hfmt : fmtD (n : Int) = Nat.toDigits 10 n := rfl
  have hne : m0 ++ ':' :: fmtD (n : Int) ≠ ['0'] := by
    intro h
    cases m0 with
    | nil => simp at h
    | cons x xs => simp at h
  unfold offsetOf
  rw [if_neg hne, Split_two m0 _ ':' hm (by rw [hfmt]; exact fun h => hd.2 _ h rfl)]
  simpa [hfmt] using hd.1

/-! ## A source that serves the bytes of a file -/

theorem cutSuffix_of_no_suffix (d : GoString) (h : strings.HasSuffix d truncSuffix = false) :
    cutSuffix d = some d := by
  simp [cutSuffix, h]

theorem drop_of_prefix (c d : GoString) (k : Nat) (h : d <+: c.drop k) :
    c.drop k = d ++ c.drop (k + d.length) := by
  obtain ⟨t, ht⟩ := h
  have : c.drop (k + d.length) = t := by
    rw [← List.drop_drop, ← ht]
    simp
  rw [this, ht]

theorem loop_serves {W : Type} (env : Env W) (f : Details) (c : GoString)
    (hsize : (aws.Int64Value f.Size).val = (c.length : Int))
    (hsrv : Serves env f.LogFileName c) :
    ∀ (fuel : Nat) (s : state) (w : W) (k : Nat), s.Size.val = (k : Int) →
      offsetOf s.Marker = some k → k < c.length → c.length - k ≤ fuel →
      ∃ r, loop env f fuel s w = some r ∧ r.res ≠ Outcome.panic ∧ r.out <+: c.drop k ∧
        (r.res = Outcome.ok → r.out = c.drop k) ∧
        (∀ e, r.res = Outcome.fetchErr e →
          r.st.Size.val = ((k + r.out.length : Nat) : Int) ∧
          offsetOf r.st.Marker = some (k + r.out.length) ∧ k + r.out.length < c.length) := by
  have hmax := (aws.Int64Value f.Size).property
  intro fuel
  induction fuel with
  | zero => intro s w k _ _ hlt hfuel; omega
  | succ n ih =>
    intro s w k hk hoff hlt hfuel
    have hS := hsrv w s.Marker k hoff hlt
    cases iteration_cases env f s w with
    | fetchErr e w1 hf hi =>
      refine ⟨_, loop_done env f n s w _ _ _ _ hi, by simp, by simp, by simp, ?_⟩
      intro e' _
      simpa using ⟨hk, hoff, hlt⟩
    | noData resp w1 hf hd hi =>
      rw [hf] at hS
      obtain ⟨d, hd', _⟩ := hS
      rw [hd] at hd'
      cases hd'
    | slicePanic resp w1 d hf hd hc hi =>
      rw [hf] at hS
      obtain ⟨d', hd', _, _, hns⟩ := hS
      rw [hd] at hd'
      cases hd'
      rw [cutSuffix_of_no_suffix d hns] at hc
      cases hc
    | writeErr resp w1 d a n' e w2 hf hd hc hw hi =>
      rw [hf] at hS
      obtain ⟨d', hd', _, hpre, hns⟩ := hS
      rw [hd] at hd'
      cases hd'
      rw [cutSuffix_of_no_suffix d hns] at hc
      cases hc
      refine ⟨_, loop_done env f n s w _ _ _ _ hi, by simp, ?_, by simp, by simp⟩
      exact (List.take_prefix n' d).trans hpre
    | last resp w1 d a w2 hf hd hc hw hs hi =>
      rw [hf] at hS
      obtain ⟨d', hd', _, hpre, hns⟩ := hS
      rw [hd] at hd'
      cases hd'
      rw [cutSuffix_of_no_suffix d hns] at hc
      cases hc
      have hlen := hpre.length_le
      simp only [List.length_drop] at hlen
      have hval : (s.Size + int64.ofInt (d.length : Int)).val =
          ((k + d.length : Nat) : Int) := by
        rw [int64_add_val, hk]
        unfold wrap64
        omega
      rw [hval, hsize] at hs
      have heq : d = c.drop k := by
        apply hpre.eq_of_length
        simp only [List.length_drop]
        omega
      refine ⟨_, loop_done env f n s w _ _ _ _ hi, by simp, by simpa using hpre,
        by intro _; simpa using heq, by simp⟩
    | more resp w1 d a w2 m0 rest hf hd hc hw hs hm hm0 hi =>
      rw [hf] at hS
      obtain ⟨d', hd', hne, hpre, hns⟩ := hS
      rw [hd] at hd'
      cases hd'
      rw [cutSuffix_of_no_suffix d hns] at hc
      cases hc
      have hlen := hpre.length_le
      simp only [List.length_drop] at hlen
      have hval : (s.Size + int64.ofInt (d.length : Int)).val =
          ((k + d.length : Nat) : Int) := by
        rw [int64_add_val, hk]
        unfold wrap64
        omega
      rw [hval, hsize] at hs
      have hpos : 0 < d.length := List.length_pos.mpr hne
      obtain ⟨r', hr', hpanic, hpre', hok', herr'⟩ :=
        ih { s with Size := s.Size + int64.ofInt (d.length : Int),
                    Marker := m0 ++ ':' :: fmtD (s.Size + int64.ofInt (d.length : Int)).val }
          w2 (k + d.length) hval
          (by simp only [hval]; exact offsetOf_marker m0 (k + d.length) hm0)
          (by omega) (by omega)
      have hdrop := drop_of_prefix c d k hpre
      refine ⟨Run.after d [(f.LogFileName, s.Marker)] r', ?_, ?_, ?_, ?_, ?_⟩
      · rw [loop_next env f n s w _ _ _ hi, hr']; rfl
      · simpa [Run.after] using hpanic
      · simp only [Run.after]
        rw [hdrop]
        exact (List.prefix_append_right_inj d).mpr hpre'
      · intro h
        have := hok' (by simpa [Run.after] using h)
        simp only [Run.after]
        rw [hdrop, this]
      · intro e h
        obtain ⟨h1, h2, h3⟩ := herr' e (by simpa [Run.after] using h)
        simp only [Run.after, List.length_append]
        refine ⟨?_, ?_, ?_⟩
        · rw [h1]; congr 1; omega
        · rw [h2]; congr 1; omega
        · omega

/-! ## Termination and the number of fetches -/

theorem loop_fetches_pos {W : Type} (env : Env W) (f : Details) (fuel : Nat) (s : state)
    (w : W) (r : Run W) (h : loop env f fuel s w = some r) : 1 ≤ r.fetches.length := by
  have := loop_first_fetch env f fuel s w r h
  cases hfs : r.fetches with
  | nil => simp [hfs] at this
  | cons x xs => simp

theorem loop_total {W : Type} (env : Env W) (hprod : Productive env) (L : Int)
    (hL : ChunkBound env L) (f : Details)
    (hSL : (aws.Int64Value f.Size).val + L ≤ 9223372036854775807) :
    ∀ (fuel : Nat) (s : state) (w : W), 1 ≤ fuel →
      s.Size.val + L ≤ 9223372036854775807 →
      ((aws.Int64Value f.Size).val - s.Size.val).toNat ≤ fuel →
      ∃ r, loop env f fuel s w = some r ∧ r.res ≠ Outcome.panic ∧
        r.fetches.length ≤ max 1 ((aws.Int64Value f.Size).val - s.Size.val).toNat := by
  intro fuel
  induction fuel with
  | zero => intro s w h; omega
  | succ n ih =>
    intro s w _ hsL hfuel
    cases iteration_cases env f s w with
    | fetchErr e w1 hf hi =>
      exact ⟨_, loop_done env f n s w _ _ _ _ hi, by simp, by simp⟩
    | noData resp w1 hf hd hi =>
      exact ⟨_, loop_done env f n s w _ _ _ _ hi, by simp, by simp⟩
    | slicePanic resp w1 d hf hd hc hi =>
      obtain ⟨a, ha, _⟩ := hprod w _ _ resp w1 hf d hd
      rw [hc] at ha
      cases ha
    | writeErr resp w1 d a n' e w2 hf hd hc hw hi =>
      exact ⟨_, loop_done env f n s w _ _ _ _ hi, by simp, by simp⟩
    | last resp w1 d a w2 hf hd hc hw hs hi =>
      exact ⟨_, loop_done env f n s w _ _ _ _ hi, by simp, by simp⟩
    | more resp w1 d a w2 m0 rest hf hd hc hw hs hm hm0 hi =>
      obtain ⟨a', ha', hne⟩ := hprod w _ _ resp w1 hf d hd
      rw [hc] at ha'
      cases ha'
      have hpos : 0 < a.length := List.length_pos.mpr hne
      have hbound := hL w _ _ resp w1 hf d a hd hc
      have hmin := s.Size.property
      have hval : (s.Size + int64.ofInt (a.length : Int)).val =
          s.Size.val + (a.length : Int) := by
        rw [int64_add_val]
        unfold wrap64
        omega
      rw [hval] at hs
      obtain ⟨r', hr', hpanic, hlen⟩ :=
        ih { s with Size := s.Size + int64.ofInt (a.length : Int),
                    Marker := m0 ++ ':' :: fmtD (s.Size + int64.ofInt (a.length : Int)).val }
          w2 (by omega) (by simp only [hval]; omega) (by simp only [hval]; omega)
      refine ⟨Run.after a [(f.LogFileName, s.Marker)] r', ?_, ?_, ?_⟩
      · rw [loop_next env f n s w _ _ _ hi, hr']; rfl
      · simpa [Run.after] using hpanic
      · simp only [Run.after, List.length_append, List.length_singleton]
        simp only [hval] at hlen
        omega

theorem resetFor_size (f : Details) (s : state) :
    (resetFor f s).Size.val =
      if s.LogFileName = aws.StringValue f.LogFileName then s.Size.val else 0 := by
  unfold resetFor
  by_cases h : s.LogFileName = aws.StringValue f.LogFileName
  · simp [h]
  · simp only [ne_eq, h, not_false_eq_true, if_true, if_false]
    rfl

/-! ## The `AdditionalDataPending` flag -/

theorem iteration_flag {W : Type} (env env' : Env W) (h : FlagOnly env env') (f : Details)
    (s : state) (w : W) : iteration env' f s w = iteration env f s w := by
  obtain ⟨_, hw, hf⟩ := h
  have := hf w f.LogFileName s.Marker
  unfold AgreeButFlag at this
  unfold iteration
  rcases h1 : env.DownloadDBLogFilePortion w f.LogFileName s.Marker with ⟨e | p, w1⟩ <;>
    rcases h2 : env'.DownloadDBLogFilePortion w f.LogFileName s.Marker with ⟨e' | q, w1'⟩ <;>
    simp only [h1, h2] at this ⊢
  · obtain ⟨rfl, rfl⟩ := this; rfl
  · exact this.2.elim
  · exact this.2.elim
  · obtain ⟨rfl, hd, hm⟩ := this
    rw [← hd, ← hm, ← hw]

theorem loop_flag {W : Type} (env env' : Env W) (h : FlagOnly env env') (f : Details) :
    ∀ (fuel : Nat) (s : state) (w : W), loop env' f fuel s w = loop env f fuel s w := by
  intro fuel
  induction fuel with
  | zero => intro s w; rfl
  | succ n ih =>
    intro s w
    simp only [loop, iteration_flag env env' h, ih]

theorem rangeFiles_flag {W : Type} (env env' : Env W) (h : FlagOnly env env') (fuel : Nat) :
    ∀ (fs : List Details) (s : state) (w : W),
      rangeFiles env' fuel fs s w = rangeFiles env fuel fs s w := by
  intro fs
  induction fs with
  | nil => intro s w; rfl
  | cons f fs ih =>
    intro s w
    simp only [rangeFiles, download, loop_flag env env' h, ih]

theorem downloadLogs_flag {W : Type} (env env' : Env W) (h : FlagOnly env env') (fuel : Nat)
    (s : state) (w : W) : downloadLogs env' fuel s w = downloadLogs env fuel s w := by
  simp only [downloadLogs, rangeFiles_flag env env' h, h.1]

theorem loop_second_fetch {W : Type} (env : Env W) (f : Details) (fuel : Nat) (s : state)
    (w : W) (r : Run W) (resp : Portion) (w1 : W)
    (hresp : env.DownloadDBLogFilePortion w f.LogFileName s.Marker = (Except.ok resp, w1))
    (hproc : ∀ d, resp.LogFileData = some d →
      ∃ a, cutSuffix d = some a ∧ (env.WriteString w1 a).1 = WriteResult.full)
    (hrun : loop env f fuel s w = some r) :
    1 < r.fetches.length ↔
      ∃ d a, resp.LogFileData = some d ∧ cutSuffix d = some a ∧
        (aws.Int64Value f.Size).val > (s.Size + int64.ofInt (a.length : Int)).val := by
  cases fuel with
  | zero => simp [loop] at hrun
  | succ n =>
    cases iteration_cases env f s w with
    | fetchErr e w1' hf hi => rw [hresp] at hf; cases hf
    | noData resp' w1' hf hd hi =>
      rw [hresp] at hf; cases hf
      rw [loop_done env f n s w _ _ _ _ hi] at hrun
      cases hrun
      simp [hd]
    | slicePanic resp' w1' d hf hd hc hi =>
      rw [hresp] at hf; cases hf
      obtain ⟨a, ha, _⟩ := hproc d hd
      rw [hc] at ha; cases ha
    | writeErr resp' w1' d a n' e w2 hf hd hc hw hi =>
      rw [hresp] at hf; cases hf
      obtain ⟨a', ha', hfull⟩ := hproc d hd
      rw [hc] at ha'; cases ha'
      rw [hw] at hfull; cases hfull
    | last resp' w1' d a w2 hf hd hc hw hs hi =>
      rw [hresp] at hf; cases hf
      rw [loop_done env f n s w _ _ _ _ hi] at hrun
      cases hrun
      simp only [List.length_singleton, lt_irrefl, false_iff, not_exists, not_and]
      intro d' a' hd' ha'
      rw [hd] at hd'; cases hd'
      rw [hc] at ha'; cases ha'
      exact hs
    | more resp' w1' d a w2 m0 rest hf hd hc hw hs hm hm0 hi =>
      rw [hresp] at hf; cases hf
      rw [loop_next env f n s w _ _ _ hi] at hrun
      simp only [Option.map_eq_some'] at hrun
      obtain ⟨r', hr', rfl⟩ := hrun
      have := loop_fetches_pos env f n _ _ r' hr'
      constructor
      · intro _; exact ⟨d, a, hd, hc, hs⟩
      · intro _
        simp only [Run.after, List.length_append, List.length_singleton]
        omega

/-! ## Facts about the concrete environments -/

theorem no_suffix_of_short (d : GoString) (h : d.length < 34) :
    strings.HasSuffix d truncSuffix = false := by
  have := truncSuffix_length
  simp only [strings.HasSuffix, Bool.and_eq_false_imp, decide_eq_true_eq]
  intro h'
  omega

theorem fileServer_serves (name c : GoString) (chunk : Nat) (hpos : 0 < chunk)
    (hsmall : chunk < 34) (nm : Option GoString) : Serves (fileServer name c chunk) nm c := by
  intro w marker k hoff hlt
  have hne : List.take chunk (List.drop k c) ≠ [] := by
    intro h
    have := congrArg List.length h
    simp only [List.length_take, List.length_drop, List.length_nil] at this
    omega
  simp only [fileServer, hoff]
  split_ifs with h1
  · trivial
  · refine ⟨List.take chunk (List.drop k c), rfl, hne, List.take_prefix _ _, ?_⟩
    apply no_suffix_of_short
    simp only [List.length_take]
    omega

theorem fileServer_productive (name c : GoString) (chunk : Nat) (hsmall : chunk < 34) :
    Productive (fileServer name c chunk) := by
  intro w nm marker resp w1 h d hd
  simp only [fileServer] at h
  split_ifs at h with h1
  · cases h
  · split at h
    · cases h
    · rename_i k hk
      simp only [Prod.mk.injEq, Except.ok.injEq] at h
      obtain ⟨rfl, _⟩ := h
      simp only at hd
      split_ifs at hd with h2
      cases hd
      refine ⟨_, cutSuffix_of_no_suffix _ (no_suffix_of_short _ ?_), h2⟩
      simp only [List.length_take]
      omega

theorem resetFor_name (f : Details) (s : state) :
    (resetFor f s).LogFileName = aws.StringValue f.LogFileName := by
  unfold resetFor
  by_cases h : s.LogFileName = aws.StringValue f.LogFileName <;> simp [h]

theorem resetFor_same (f : Details) (s : state)
    (h : s.LogFileName = aws.StringValue f.LogFileName) : resetFor f s = s := by
  simp [resetFor, h]

/-! ## The claims -/

/-- C1. A chunk that ends with the truncation suffix: the suffix is 34 bytes
long and the code cuts 35, so for the data `"ab"` followed by the suffix the
file receives `"a"` and `Size` grows by 1, where the suffix alone removed would
give `"ab"` and 2. -/
theorem truncated_chunk_loses_a_byte :
    truncSuffix.length = 34 ∧
    cutSuffix ("ab".toList ++ truncSuffix) = some "a".toList ∧
    (iteration truncatedChunk (details "f" 2 1) (resetFor (details "f" 2 1) state.zero) 0).wrote
      = "a".toList ∧
    (iteration truncatedChunk (details "f" 2 1) (resetFor (details "f" 2 1) state.zero) 0).st.Size
      = 1 := by
  decide

/-- C2. Two cycles over a file that grew from four to six bytes: the first
cycle writes `"abcd"` and leaves the marker `"0:2"` of its last fetch, and the
second cycle fetches from there and writes `"cd"` again, not `"ef"`. -/
theorem regrown_file_repeats_bytes :
    (downloadLogs fourBytes 5 state.zero []).map Run.view =
      some (Outcome.ok, drainedFour, "abcd".toList, 2) ∧
    (downloadLogs sixBytes 5 drainedFour []).map Run.view =
      some (Outcome.ok,
        { LastWritten := 6, LogFileName := "f".toList, Marker := "0:2".toList, Size := 6 },
        "cd".toList, 1) := by
  decide

/-- C3. Resumability.  A source serves the content `c` of a file listed with
size `len c`.  A download that starts at the beginning of the file and is
aborted by a fetch error after `N` bytes, `0 < N < len c`, leaves a state from
which a second download of the same file returns (any fuel of at least
`len c - N` is enough) without a panic, and when it returns nil it has written
`len c - N` bytes and the bytes of both downloads together are `c`. -/
theorem download_resumes {W : Type} (env : Env W) (f : Details) (c : GoString)
    (s0 : state) (w0 : W) (fuel1 fuel2 : Nat) (r1 : Run W) (e : Error)
    (hsize : (aws.Int64Value f.Size).val = (c.length : Int))
    (hsrv : Serves env f.LogFileName c)
    (hstart : (resetFor f s0).Size = 0 ∧ (resetFor f s0).Marker = ['0'])
    (h1 : download env fuel1 f s0 w0 = some r1)
    (habort : r1.res = Outcome.fetchErr e)
    (hN : 0 < r1.out.length ∧ r1.out.length < c.length)
    (hfuel : c.length - r1.out.length ≤ fuel2) :
    ∃ r2, download env fuel2 f r1.st r1.world = some r2 ∧ r2.res ≠ Outcome.panic ∧
      (r2.res = Outcome.ok →
        r2.out.length = c.length - r1.out.length ∧ r1.out ++ r2.out = c) := by
  unfold download at h1
  obtain ⟨r, hr, _, hpre, _, herr⟩ :=
    loop_serves env f c hsize hsrv (max fuel1 c.length) (resetFor f s0) w0 0
      (by rw [hstart.1]; rfl) (by rw [hstart.2]; rfl) (by omega) (by omega)
  rw [loop_mono env f fuel1 _ _ r1 h1 (max fuel1 c.length) (le_max_left _ _)] at hr
  cases hr
  obtain ⟨hsz, hoff, hlt⟩ := herr e habort
  have hname : r1.st.LogFileName = aws.StringValue f.LogFileName :=
    (loop_keeps env f fuel1 _ _ r1 h1).2.trans (resetFor_name f s0)
  obtain ⟨r2, hr2, hp2, _, hok2, _⟩ :=
    loop_serves env f c hsize hsrv fuel2 r1.st r1.world (0 + r1.out.length) hsz hoff hlt
      (by omega)
  refine ⟨r2, by simp [download, resetFor_same f r1.st hname, hr2], hp2, ?_⟩
  intro h
  have h2 := hok2 h
  have hdrop := drop_of_prefix c r1.out 0 hpre
  simp only [List.drop_zero] at hdrop
  rw [h2]
  refine ⟨?_, hdrop.symm⟩
  simp only [List.length_drop]
  omega

theorem download_resumes_witness :
    (download sixBytes 5 (details "f" 6 6) state.zero [false, true]).map Run.view
      = some abortedRun.view ∧
    ∃ r2, download sixBytes 4 (details "f" 6 6) abortedRun.st abortedRun.world = some r2 ∧
      r2.res ≠ Outcome.panic ∧
      (r2.res = Outcome.ok →
        r2.out.length = "abcdef".toList.length - abortedRun.out.length ∧
        abortedRun.out ++ r2.out = "abcdef".toList) :=
  ⟨by decide,
   download_resumes sixBytes (details "f" 6 6) "abcdef".toList state.zero [false, true] 5 4
    abortedRun "timeout" rfl
    (fileServer_serves "f".toList "abcdef".toList 2 (by decide) (by decide) _)
    (by decide) rfl rfl (by decide) (by decide)⟩

/-- C4. Size-driven continuation.  When a fetch is answered and the answer is
processed (the cut is in range and the write succeeds), a further fetch is
issued exactly when the answer carried data and the listed size is greater than
`Size` after the write.  An environment that differs only in the
`AdditionalDataPending` flags gives the same run of the loop, of `download` and
of `downloadLogs`. -/
theorem size_driven_continuation {W : Type} (env env' : Env W) (f : Details) (fuel : Nat)
    (s : state) (w : W) (r : Run W) (resp : Portion) (w1 : W)
    (hflag : FlagOnly env env')
    (hresp : env.DownloadDBLogFilePortion w f.LogFileName s.Marker = (Except.ok resp, w1))
    (hproc : ∀ d, resp.LogFileData = some d →
      ∃ a, cutSuffix d = some a ∧ (env.WriteString w1 a).1 = WriteResult.full)
    (hrun : loop env f fuel s w = some r) :
    (1 < r.fetches.length ↔
      ∃ d a, resp.LogFileData = some d ∧ cutSuffix d = some a ∧
        (aws.Int64Value f.Size).val > (s.Size + int64.ofInt (a.length : Int)).val) ∧
    loop env' f fuel s w = some r ∧
    (∀ fuel' g s' w', download env' fuel' g s' w' = download env fuel' g s' w') ∧
    (∀ fuel' s' w', downloadLogs env' fuel' s' w' = downloadLogs env fuel' s' w') := by
  refine ⟨loop_second_fetch env f fuel s w r resp w1 hresp hproc hrun, ?_, ?_, ?_⟩
  · rw [loop_flag env env' hflag, hrun]
  · intro fuel' g s' w'
    simp only [download, loop_flag env env' hflag]
  · intro fuel' s' w'
    exact downloadLogs_flag env env' hflag fuel' s' w'

theorem flagsWrong_flagOnly : FlagOnly flagsWrong flagsRight := by
  refine ⟨rfl, rfl, ?_⟩
  intro w name marker
  match w with
  | 0 => exact ⟨rfl, rfl, rfl⟩
  | 1 => exact ⟨rfl, rfl, rfl⟩
  | n + 2 => exact ⟨rfl, rfl⟩

theorem size_driven_continuation_witness :
    (1 < twoChunkRun.fetches.length ↔
      ∃ d a, (some "ab".toList : Option GoString) = some d ∧ cutSuffix d = some a ∧
        (aws.Int64Value (details "f" 4 9).Size).val >
          ((resetFor (details "f" 4 9) state.zero).Size + int64.ofInt (a.length : Int)).val) ∧
    loop flagsRight (details "f" 4 9) 2 (resetFor (details "f" 4 9) state.zero) 0
      = some twoChunkRun ∧
    (∀ fuel' g s' w', download flagsRight fuel' g s' w' = download flagsWrong fuel' g s' w') ∧
    (∀ fuel' s' w', downloadLogs flagsRight fuel' s' w' = downloadLogs flagsWrong fuel' s' w') :=
  size_driven_continuation flagsWrong flagsRight (details "f" 4 9) 2
    (resetFor (details "f" 4 9) state.zero) 0 twoChunkRun
    { AdditionalDataPending := some false, LogFileData := some "ab".toList,
      Marker := some "0:2".toList } 1
    flagsWrong_flagOnly rfl
    (by intro d hd; cases hd; exact ⟨"ab".toList, by decide, rfl⟩)
    rfl

/-- C5. Watermark advance.  A cycle whose listing succeeds and that returns
nil leaves `LastWritten` at the time stamp of the last listed descriptor, and
unchanged when nothing is listed. -/
theorem watermark_advance {W : Type} (env : Env W) (fuel : Nat) (s : state) (w : W)
    (fs : List Details) (w1 : W) (r : Run W)
    (hlist : env.DescribeDBLogFiles w s.LastWritten = (Except.ok fs, w1))
    (hrun : downloadLogs env fuel s w = some r)
    (hok : r.res = Outcome.ok) :
    r.st.LastWritten =
      match fs.getLast? with
      | some f => aws.Int64Value f.LastWritten
      | none => s.LastWritten := by
  simp only [downloadLogs, hlist] at hrun
  exact rangeFiles_ok_lastWritten env fuel fs s w1 r hrun hok

theorem watermark_advance_witness :
    downloadLogs threeFiles 1 state.zero 0 = some threeFilesRun ∧
    threeFilesRun.st.LastWritten =
      match [details "a" 0 1, details "b" 0 2, details "c" 0 3].getLast? with
      | some f => aws.Int64Value f.LastWritten
      | none => state.zero.LastWritten :=
  ⟨rfl, watermark_advance threeFiles 1 state.zero 0 _ 0 threeFilesRun rfl rfl rfl⟩

/-- C6, as stated, fails: from a state with watermark 10 a cycle whose listing
returns a file with time stamp 5 returns nil and leaves the watermark 5. -/
theorem watermark_can_decrease :
    (downloadLogs oldFile 1 { state.zero with LastWritten := 10 } 0).map
      (fun r => (r.res, r.st.LastWritten)) = some (Outcome.ok, 5) := by
  decide

/-- C6, amended.  When every descriptor the listing returns has a time stamp
at or above the watermark at entry, the watermark a cycle leaves, returned or
aborted, is at or above the watermark at entry. -/
theorem watermark_monotone_of_listing {W : Type} (env : Env W) (fuel : Nat) (s : state)
    (w : W) (r : Run W)
    (hlist : ∀ fs w1, env.DescribeDBLogFiles w s.LastWritten = (Except.ok fs, w1) →
      ∀ f ∈ fs, s.LastWritten.val ≤ (aws.Int64Value f.LastWritten).val)
    (hrun : downloadLogs env fuel s w = some r) :
    s.LastWritten.val ≤ r.st.LastWritten.val := by
  unfold downloadLogs at hrun
  split at hrun
  · simp only [Option.some.injEq] at hrun
    subst hrun
    exact le_refl _
  · rename_i fs w1 heq
    rcases rangeFiles_lastWritten_mem env fuel fs s w1 r hrun with h | ⟨f, hf, h⟩
    · rw [h]
    · rw [h]
      exact hlist fs w1 heq f hf

theorem watermark_monotone_of_listing_witness :
    state.zero.LastWritten.val ≤ threeFilesRun.st.LastWritten.val :=
  watermark_monotone_of_listing threeFiles 1 state.zero 0 threeFilesRun
    (by
      intro fs w1 h f hf
      cases h
      simp only [List.mem_cons, List.mem_singleton, List.not_mem_nil, or_false] at hf
      rcases hf with rfl | rfl | rfl <;> decide)
    rfl

/-- C7. File-switch reset.  `download` runs the loop from the reset state.  For
a descriptor with another name that state has the new name, marker `"0"` and
size 0, the first fetch carries marker `"0"`, and unless a write failed `Size`
ends as the number of bytes written, as an `int64`.  For a descriptor with the
same name the state is carried, the first fetch carries `s.Marker`, and `Size`
ends as `s.Size` plus the bytes written, as an `int64`.  Marker and size are
reset both or neither. -/
theorem file_switch_reset {W : Type} (env : Env W) (fuel : Nat) (f : Details) (s : state)
    (w : W) (r : Run W) (hrun : download env fuel f s w = some r) :
    loop env f fuel (resetFor f s) w = some r ∧
    (s.LogFileName ≠ aws.StringValue f.LogFileName →
      resetFor f s = { LastWritten := s.LastWritten,
                       LogFileName := aws.StringValue f.LogFileName,
                       Marker := ['0'], Size := 0 } ∧
      r.fetches.head? = some (f.LogFileName, ['0']) ∧
      ((∀ e, r.res ≠ Outcome.writeErr e) → r.st.Size.val = wrap64 (r.out.length : Int))) ∧
    (s.LogFileName = aws.StringValue f.LogFileName →
      resetFor f s = s ∧
      r.fetches.head? = some (f.LogFileName, s.Marker) ∧
      ((∀ e, r.res ≠ Outcome.writeErr e) →
        r.st.Size.val = wrap64 (s.Size.val + (r.out.length : Int)))) ∧
    (((resetFor f s).Marker = s.Marker ∧ (resetFor f s).Size = s.Size) ∨
      ((resetFor f s).Marker = ['0'] ∧ (resetFor f s).Size = 0)) := by
  have hfirst := loop_first_fetch env f fuel _ w r hrun
  have hsize := loop_size env f fuel _ w r hrun
  refine ⟨hrun, ?_, ?_, ?_⟩
  · intro hne
    have hreset : resetFor f s =
        ⟨s.LastWritten, aws.StringValue f.LogFileName, ['0'], 0⟩ := by
      simp [resetFor, hne]
    rw [hreset] at hfirst hsize
    refine ⟨hreset, hfirst, ?_⟩
    intro h
    have h0 : ((0 : int64).val : Int) = 0 := rfl
    have := hsize h
    simp only [h0, zero_add] at this
    exact this
  · intro heq
    rw [resetFor_same f s heq] at hfirst hsize
    exact ⟨resetFor_same f s heq, hfirst, hsize⟩
  · by_cases h : s.LogFileName = aws.StringValue f.LogFileName
    · left; rw [resetFor_same f s h]; exact ⟨rfl, rfl⟩
    · right; simp [resetFor, h]

theorem file_switch_reset_witness :
    (resetFor (details "f" 6 6) drainedFour).Marker = "0:2".toList ∧
    (resetFor (details "g" 6 6) drainedFour).Marker = "0".toList ∧
    abortedRun.fetches.head? = some (some "f".toList, ['0']) :=
  ⟨by decide, by decide,
   ((file_switch_reset sixBytes 5 (details "f" 6 6) state.zero [false, true] abortedRun
      rfl).2.1 (by decide)).2.1⟩

/-- C8. A chunk whose data is the truncation suffix and nothing else: the
suffix is 34 bytes long, the slice `a[:len(a)-35]` has the bound -1, and the
call ends in a panic. -/
theorem suffix_only_chunk_panics :
    truncSuffix.length = 34 ∧
    strings.HasSuffix truncSuffix truncSuffix = true ∧
    cutSuffix truncSuffix = none ∧
    (download suffixOnly 1 (details "f" 100 1) state.zero 0).map (fun r => r.res)
      = some Outcome.panic := by
  decide

/-- C9. A file drained in two chunks from the zero state, which is coherent:
`download` returns nil with marker `"0:2"` and size 4, a state that is not
coherent. -/
theorem completed_file_leaves_stale_marker :
    Coherent state.zero ∧
    (download fourBytes 5 (details "f" 4 4) state.zero []).map
      (fun r => (r.view, decide (Coherent r.st))) =
      some ((Outcome.ok,
        { LastWritten := 0, LogFileName := "f".toList, Marker := "0:2".toList, Size := 4 },
        "abcd".toList, 2), false) := by
  decide

theorem oneByte_productive : Productive oneByte := by
  intro w name marker resp w1 h d hd
  match w with
  | 0 =>
    cases h
    cases hd
    exact ⟨"x".toList, by decide, by decide⟩
  | 1 =>
    cases h
    cases hd
  | n + 2 => cases h

/-- C10, as stated, fails: every response of this source that carries data
gives a byte to write, the size at loop entry is the greatest `int64` and the
listed size is 5, so the claim allows one fetch; the addition of line 105 wraps
to the least `int64`, the listed size is greater, and a second fetch is
issued with the marker `"0:-9223372036854775808"`. -/
theorem download_overflow_refetches :
    Productive oneByte ∧
    (aws.Int64Value (details "f" 5 1).Size).val ≤ (resetFor (details "f" 5 1) maxedState).Size.val ∧
    (download oneByte 2 (details "f" 5 1) maxedState 0).map Run.view =
      some (Outcome.ok,
        { LastWritten := 0, LogFileName := "f".toList,
          Marker := "0:-9223372036854775808".toList,
          Size := int64.ofInt (-9223372036854775808) },
        "x".toList, 2) :=
  ⟨oneByte_productive, by decide, by decide⟩

/-- C10, amended.  When every response that carries data leads to at least
one byte to write, and no chunk is so long that the byte count could pass the
greatest `int64` (every chunk has at most `L` bytes, and both the size at loop
entry `b0` and the listed size `S` are at most `2 ^ 63 - 1 - L`), `download`
returns, without a panic, for every fuel of at least `max 1 (S - b0)`; it
issues at least one and at most `max 1 (S - b0)` fetches, so exactly one when
`b0 ≥ S`.  Here `b0` is 0 after a reset and the carried size otherwise. -/
theorem download_terminates {W : Type} (env : Env W) (fuel : Nat) (f : Details) (s : state)
    (w : W) (L : Int) (hprod : Productive env) (hL : ChunkBound env L)
    (hS : (aws.Int64Value f.Size).val + L ≤ 9223372036854775807)
    (hb : (if s.LogFileName = aws.StringValue f.LogFileName then s.Size.val else 0) + L
      ≤ 9223372036854775807)
    (hfuel : max 1 ((aws.Int64Value f.Size).val -
      (if s.LogFileName = aws.StringValue f.LogFileName then s.Size.val else 0)).toNat
        ≤ fuel) :
    ∃ r, download env fuel f s w = some r ∧ r.res ≠ Outcome.panic ∧
      1 ≤ r.fetches.length ∧
      r.fetches.length ≤ max 1 ((aws.Int64Value f.Size).val -
        (if s.LogFileName = aws.StringValue f.LogFileName then s.Size.val else 0)).toNat ∧
      ((aws.Int64Value f.Size).val ≤
          (if s.LogFileName = aws.StringValue f.LogFileName then s.Size.val else 0) →
        r.fetches.length = 1) := by
  rw [← resetFor_size] at hb hfuel ⊢
  obtain ⟨r, hr, hp, hlen⟩ :=
    loop_total env hprod L hL f hS fuel (resetFor f s) w (le_trans (le_max_left _ _) hfuel)
      hb (le_trans (le_max_right _ _) hfuel)
  have hpos := loop_fetches_pos env f fuel _ w r hr
  refine ⟨r, hr, hp, hpos, hlen, ?_⟩
  intro h
  have : ((aws.Int64Value f.Size).val - (resetFor f s).Size.val).toNat = 0 := by omega
  rw [this] at hlen
  simp only [ge_iff_le, zero_le, max_eq_left] at hlen
  omega

theorem fileServer_chunkBound (name c : GoString) (chunk : Nat) :
    ChunkBound (fileServer name c chunk) (34 + chunk : Nat) := by
  intro w nm marker resp w1 h d a hd ha
  simp only [fileServer] at h
  split_ifs at h with h1
  · cases h
  · split at h
    · cases h
    · rename_i k hk
      simp only [Prod.mk.injEq, Except.ok.injEq] at h
      obtain ⟨rfl, _⟩ := h
      simp only at hd
      split_ifs at hd with h2
      cases hd
      have hlen : (List.take chunk (List.drop k c)).length ≤ chunk := by
        simp only [List.length_take]
        omega
      unfold cutSuffix at ha
      split_ifs at ha with h3 h4
      · simp only [Option.some.injEq] at ha
        subst ha
        simp only [List.length_take, Nat.cast_le]
        omega
      · simp only [Option.some.injEq] at ha
        subst ha
        exact_mod_cast (by omega : (List.take chunk (List.drop k c)).length ≤ 34 + chunk)

theorem download_terminates_witness :
    ∃ r, download sixBytes 6 (details "f" 6 6) state.zero [] = some r ∧
      r.res ≠ Outcome.panic ∧ 1 ≤ r.fetches.length ∧
      r.fetches.length ≤ max 1 ((aws.Int64Value (details "f" 6 6).Size).val -
        (if state.zero.LogFileName = aws.StringValue (details "f" 6 6).LogFileName
          then state.zero.Size.val else 0)).toNat ∧
      ((aws.Int64Value (details "f" 6 6).Size).val ≤
          (if state.zero.LogFileName = aws.StringValue (details "f" 6 6).LogFileName
            then state.zero.Size.val else 0) →
        r.fetches.length = 1) :=
  download_terminates sixBytes 6 (details "f" 6 6) state.zero [] ((34 + 2 : Nat) : Int)
    (fileServer_productive "f".toList "abcdef".toList 2 (by decide))
    (fileServer_chunkBound "f".toList "abcdef".toList 2)
    (by decide) (by decide) (by decide)

end Infinibadger
